import Mathlib

/-
  Shallow embedding of the invertible Bloom filter from gerardsn/bloom
  (src/invertible_filter.go plus the constants of common.go).

  The repository contains two evolutions of the filter in the same file:
    * variant 1 (multi-seed): 32-bit murmur3 key hash, a list of four
      indexing seeds, `hashIndices` derives one index per seed and
      deduplicates; `validateSubtrahend` sorts both seed lists in place.
    * variant 2 (single-seed): 64-bit murmur3 key hash, a `K` field,
      `bucketIndices` expands one hash with an xorshift64 generator until
      `K` distinct indices are collected.
  Both are embedded below.  Bytes are modelled as natural numbers below 256
  (XOR never leaves that range), hash words as natural numbers (XOR of
  values below 2 to the 32 or 64 never overflows, so no modulus is needed
  on the running XOR sums), and the signed Go `int` bucket counter as `Int`.

  The murmur3 hash itself comes from an external library
  (github.com/spaolacci/murmur3), not from this repository; every operation
  that hashes therefore takes the hash as an explicit function parameter
  `murmur : Key -> Nat -> Nat` (key and seed to hash value).  All positive
  theorems below hold for every such function; concrete evaluations use an
  arbitrary executable stand-in.
-/

set_option maxRecDepth 8000

abbrev Key := List Nat

/-- Constant from common.go: `KeyLength = 32`. -/
def KeyLength : Nat := 32

/-- Constant from common.go: `MinBuckets = 128`. -/
def MinBuckets : Nat := 128

/-- Modelled from the spec: the byte-vector XOR helper `xor` of the
repository is not under src (only its callers are).  Spec section 4.1:
pointwise XOR, requiring equal lengths, with unequal-length behaviour left
undefined (it must not silently truncate or pad).  In the defined region,
equal lengths, zipWith is exactly that pointwise XOR.  On unequal lengths
zipWith truncates: this total definition is therefore one arbitrary
completion of the undefined region, used only where a result must be
executed; no claim below rests on the truncating branch (the facts drawn
from such executions are count facts that do not pass through xor), and
the parameterized xorBytesU below quantifies over every completion of the
undefined region, including aborting ones, wherever a claim is about
unequal-length behaviour itself. -/
def xorBytes (a b : List Nat) : List Nat := List.zipWith Nat.xor a b

/-- Modelled from the spec: the byte-equality helper `eq` of the repository
is not under src.  Spec section 4.1: `bytesEqual`. -/
def eqBytes (a b : List Nat) : Bool := a == b

/-- The bucket record of invertible_filter.go: a signed count, the XOR of
all keys folded into the bucket, and the XOR of their hashes. -/
structure bucket where
  count : Int
  keySum : List Nat
  hashSum : Nat
deriving DecidableEq

/-- Source `newBucket` of invertible_filter.go: zero count, an all-zero key sum of
the configured length, zero hash sum. -/
def newBucket (keyLength : Nat) : bucket :=
  { count := 0, keySum := List.replicate keyLength 0, hashSum := 0 }

/-- Source `bucket.update`: fold one key/hash pair into the XOR sums. -/
def bucket.update (b : bucket) (key : List Nat) (hash : Nat) : bucket :=
  { b with keySum := xorBytes b.keySum key, hashSum := Nat.xor b.hashSum hash }

/-- Source `bucket.add`: increment the count and fold the pair in. -/
def bucket.add (b : bucket) (key : List Nat) (hash : Nat) : bucket :=
  { b.update key hash with count := b.count + 1 }

/-- Source `bucket.delete`: decrement the count and fold the pair in. -/
def bucket.delete (b : bucket) (key : List Nat) (hash : Nat) : bucket :=
  { b.update key hash with count := b.count - 1 }

/-- Source `bucket.subtract`: fold the whole other bucket in one step. -/
def bucket.subtract (b o : bucket) : bucket :=
  { b.update o.keySum o.hashSum with count := b.count - o.count }

/-- Source `bucket.isEmpty` of variant 1: the key sum is compared against a fresh
all-zero slice of the global constant length `KeyLength`. -/
def bucket.isEmpty (b : bucket) : Bool :=
  b.count == 0 && b.hashSum == 0 && eqBytes b.keySum (List.replicate KeyLength 0)

/-- Read a bucket of the array; Go indexing panics out of range, the model
returns a default that no well-formed call ever reaches. -/
def getAt (l : List bucket) (n : Nat) : bucket := l.getD n (newBucket 0)

/-- In-place mutation of one slot of the bucket array. -/
def modifyAt (f : bucket → bucket) : List bucket → Nat → List bucket
  | [], _ => []
  | b :: bs, 0 => f b :: bs
  | b :: bs, n + 1 => b :: modifyAt f bs n

/-- Source `unique` of invertible_filter.go: first-occurrence deduplication. -/
def unique (l : List Nat) : List Nat :=
  l.foldl (fun acc v => if v ∈ acc then acc else acc ++ [v]) []

/-- The filter record of variant 1 (source name `ibf`). -/
structure ibf where
  Buckets : List bucket
  NumBuckets : Nat
  Seeds : List Nat
  KeySeed : Nat
  KeyLength : Nat
deriving DecidableEq

/-- Source `NewIbf` of variant 1: all-zero buckets, seeds 0 1 2 4, key seed 33,
key length 32. -/
def NewIbf (numBuckets : Nat) : ibf :=
  { Buckets := List.replicate numBuckets (newBucket KeyLength)
    Seeds := [0, 1, 2, 4]
    KeySeed := 33
    KeyLength := KeyLength
    NumBuckets := numBuckets }

/-- Composition `UnmarshalJson (MarshalJson i)` as Go encoding/json executes
it on these declarations: the exported fields of `ibf` (Buckets, NumBuckets,
Seeds, KeySeed, KeyLength) round-trip, but the element type `bucket` has
only unexported fields (`count`, `keySum`, `hashSum`), which encoding/json
ignores, so every bucket marshals as the empty JSON object and unmarshals
as the zero bucket: count 0, nil (empty) key sum, hash sum 0. -/
def jsonRoundTrip (i : ibf) : ibf :=
  { i with Buckets := i.Buckets.map (fun _ => { count := 0, keySum := [], hashSum := 0 }) }

/-- Source `clone` of invertible_filter.go: marshal then unmarshal. -/
def ibf.clone (i : ibf) : ibf := jsonRoundTrip i

/-- Source `hashKey` of variant 1: murmur with the filter key seed. -/
def ibf.hashKey (murmur : Key → Nat → Nat) (i : ibf) (key : Key) : Nat :=
  murmur key i.KeySeed

/-- Source `hashIndices` of variant 1: one index per seed, reduced modulo the
bucket count, deduplicated. -/
def ibf.hashIndices (murmur : Key → Nat → Nat) (i : ibf) (key : Key) : List Nat :=
  unique (i.Seeds.map (fun seed => murmur key seed % i.NumBuckets))

/-- Source `Add` of variant 1: hash once, update every indexed bucket, then report
whether some touched bucket still has count below 2. -/
def ibf.Add (murmur : Key → Nat → Nat) (i : ibf) (key : Key) : ibf × Bool :=
  let hash := ibf.hashKey murmur i key
  let idxs := ibf.hashIndices murmur i key
  let bs := idxs.foldl (fun acc h => modifyAt (fun b => b.add key hash) acc h) i.Buckets
  ({ i with Buckets := bs }, idxs.any (fun h => decide ((getAt bs h).count < 2)))

/-- Source `Delete` of variant 1. -/
def ibf.Delete (murmur : Key → Nat → Nat) (i : ibf) (key : Key) : ibf :=
  let hash := ibf.hashKey murmur i key
  let idxs := ibf.hashIndices murmur i key
  { i with Buckets := idxs.foldl (fun acc h => modifyAt (fun b => b.delete key hash) acc h) i.Buckets }

/-- Which configuration check of `validateSubtrahend` (variant 1) fails;
the Go function returns a distinct error message for each. -/
inductive MismatchField where
  | numBuckets
  | keySeed
  | keyLength
  | seedsLen
  | seedsContent
deriving DecidableEq

/-- Go sort.Slice with the less-than comparator on the seed values; on
natural numbers the ascending sorted permutation is unique, so any correct
sort produces the insertion-sort result. -/
def sortSeeds (l : List Nat) : List Nat := List.insertionSort (· ≤ ·) l

/-- Source `validateSubtrahend` of variant 1.  The checks run in source order;
both seed lists are sorted in place before the element-wise comparison, so
the possibly mutated filters are returned alongside the verdict. -/
def ibf.validateSubtrahend (i o : ibf) : Option MismatchField × ibf × ibf :=
  if i.NumBuckets ≠ o.NumBuckets then (some MismatchField.numBuckets, i, o)
  else if i.KeySeed ≠ o.KeySeed then (some MismatchField.keySeed, i, o)
  else if i.KeyLength ≠ o.KeyLength then (some MismatchField.keyLength, i, o)
  else if i.Seeds.length ≠ o.Seeds.length then (some MismatchField.seedsLen, i, o)
  else
    let i' := { i with Seeds := sortSeeds i.Seeds }
    let o' := { o with Seeds := sortSeeds o.Seeds }
    if i'.Seeds ≠ o'.Seeds then (some MismatchField.seedsContent, i', o')
    else (none, i', o')

/-- Source `Subtract` of variant 1: validate, then bucket-wise subtraction.  The
result carries the updated receiver and the updated subtrahend (both may
have had their seed lists sorted by validation). -/
def ibf.Subtract (i o : ibf) : Option MismatchField × ibf × ibf :=
  match ibf.validateSubtrahend i o with
  | (some e, i', o') => (some e, i', o')
  | (none, i', o') =>
    (none, { i' with Buckets := List.zipWith bucket.subtract i'.Buckets o'.Buckets }, o')

/-- The state threaded through one `Decode` pass: the filter, the two
output lists and the updated flag of the Go loop. -/
structure DecodeState where
  filt : ibf
  rem : List Key
  mis : List Key
  upd : Bool
deriving DecidableEq

/-- One bucket inspection inside a `Decode` pass: a bucket with count plus
or minus one whose key sum re-hashes to its hash sum is peeled, every other
bucket leaves the state unchanged. -/
def processBucket (murmur : Key → Nat → Nat) (s : DecodeState) (j : Nat) : DecodeState :=
  let b := getAt s.filt.Buckets j
  if (b.count == 1 || b.count == -1) && (ibf.hashKey murmur s.filt b.keySum == b.hashSum) then
    if b.count == 1 then
      { filt := ibf.Delete murmur s.filt b.keySum, rem := s.rem ++ [b.keySum], mis := s.mis, upd := true }
    else
      { filt := (ibf.Add murmur s.filt b.keySum).1, rem := s.rem, mis := s.mis ++ [b.keySum], upd := true }
  else s

/-- One full pass of the `Decode` loop: scan the buckets in order, threading
the mutation performed at each pure bucket through to the later ones. -/
def decodePass (murmur : Key → Nat → Nat) (i : ibf) (rem mis : List Key) : DecodeState :=
  (List.range i.Buckets.length).foldl (processBucket murmur)
    { filt := i, rem := rem, mis := mis, upd := false }

/-- The outer `Decode` loop; the Go loop has no bound, so the model takes
fuel and returns `none` when the fuel is exhausted before the loop exits.
On exit it returns the two lists, the success flag (false is the decode
failed error) and the number of passes executed. -/
def decodeLoop (murmur : Key → Nat → Nat) :
    Nat → ibf → List Key → List Key → Option (List Key × List Key × Bool × Nat)
  | 0, _, _, _ => none
  | fuel + 1, i, rem, mis =>
    let s := decodePass murmur i rem mis
    if s.upd then
      match decodeLoop murmur fuel s.filt s.rem s.mis with
      | none => none
      | some (r, m, ok, p) => some (r, m, ok, p + 1)
    else if s.filt.Buckets.all bucket.isEmpty then some (s.rem, s.mis, true, 1)
    else some (s.rem, s.mis, false, 1)

/-- Source `Decode` of variant 1, starting from empty output lists. -/
def ibf.Decode (murmur : Key → Nat → Nat) (fuel : Nat) (i : ibf) :
    Option (List Key × List Key × Bool × Nat) :=
  decodeLoop murmur fuel i [] []

/-- Bucket-for-bucket equality of the round-trip claim: equal count, key
sum and hash sum. -/
def bucketEq (a b : bucket) : Bool :=
  a.count == b.count && eqBytes a.keySum b.keySum && a.hashSum == b.hashSum

/-- Filter equality of the round-trip claim: bucket-for-bucket equality
plus equal configuration. -/
def ibfEq (a b : ibf) : Bool :=
  a.Buckets.length == b.Buckets.length &&
  (List.zipWith bucketEq a.Buckets b.Buckets).all id &&
  a.NumBuckets == b.NumBuckets && a.Seeds == b.Seeds &&
  a.KeySeed == b.KeySeed && a.KeyLength == b.KeyLength

/-- An arbitrary executable stand-in for the external murmur3 library used
by the concrete evaluations below; the refuted properties are independent
of the hash values (they only use that the same key and seed always hash
the same way), so any function in this slot exhibits them. -/
def murmurT (key : Key) (seed : Nat) : Nat :=
  key.foldl (fun a c => (a * 31 + c) % 4294967296) seed

/-- A fixed 32-byte key for the concrete evaluations. -/
def kT : Key := (List.range 32).map (fun t => t + 1)

/-- The filter record of variant 2 (source name `ibf`, second evolution):
a bucket array, the number K of indices per key, one hash seed and the key
length. -/
structure ibf2 where
  Buckets : List bucket
  K : Nat
  Seed : Nat
  KeyLength : Nat
deriving DecidableEq

/-- Source `NewIbf` of variant 2: all-zero buckets, K = 4, seed 33, key length 32
(the lowercase `keyLength` constant of variant 2 equals `KeyLength`). -/
def NewIbf2 (numBuckets : Nat) : ibf2 :=
  { Buckets := List.replicate numBuckets (newBucket KeyLength)
    K := 4
    Seed := 33
    KeyLength := KeyLength }

/-- Source `xorshift64` of variant 2: the zero state is special-cased to one, then
three shift-xor steps on 64-bit words; the left shifts truncate modulo
2 to the 64 exactly as the Go uint64 arithmetic does. -/
def xorshift64 (s0 : Nat) : Nat :=
  let s1 := if s0 = 0 then s0 + 1 else s0
  let s2 := s1 ^^^ ((s1 <<< 13) % (2 ^ 64))
  let s3 := s2 ^^^ (s2 >>> 7)
  s3 ^^^ ((s3 <<< 17) % (2 ^ 64))

/-- The loop body of `bucketIndices` (variant 2), with explicit fuel: while
fewer than K indices are collected, draw the next xorshift value, reduce it
modulo the bucket count, and append it when it is new.  `none` means the
fuel ran out with the loop still running. -/
def bucketIndicesAux (k numBuckets : Nat) : Nat → Nat → List Nat → Option (List Nat)
  | 0, _, acc => if acc.length < k then none else some acc
  | fuel + 1, next, acc =>
    if acc.length < k then
      bucketIndicesAux k numBuckets fuel (xorshift64 next)
        (if next % numBuckets ∈ acc then acc else acc ++ [next % numBuckets])
    else some acc

/-- Source `bucketIndices` of variant 2: expand one hash into K distinct bucket
indices, starting the generator at xorshift64 of the hash. -/
def ibf2.bucketIndices (i : ibf2) (fuel : Nat) (hash : Nat) : Option (List Nat) :=
  bucketIndicesAux i.K i.Buckets.length fuel (xorshift64 hash) []

/-- Source `hashKey` of variant 2: 64-bit murmur with the filter seed (the hash is
again an explicit function parameter). -/
def ibf2.hashKey (murmur64 : Key → Nat → Nat) (i : ibf2) (key : Key) : Nat :=
  murmur64 key i.Seed

/-- Source `Add` of variant 2: hash once, derive the indices (fuelled), update
every indexed bucket; `none` when the index loop did not finish. -/
def ibf2.Add (murmur64 : Key → Nat → Nat) (fuel : Nat) (i : ibf2) (key : Key) : Option ibf2 :=
  let hash := ibf2.hashKey murmur64 i key
  match ibf2.bucketIndices i fuel hash with
  | none => none
  | some idxs =>
    some { i with Buckets := idxs.foldl (fun acc h => modifyAt (fun b => b.add key hash) acc h) i.Buckets }

/-- Source `Delete` of variant 2. -/
def ibf2.Delete (murmur64 : Key → Nat → Nat) (fuel : Nat) (i : ibf2) (key : Key) : Option ibf2 :=
  let hash := ibf2.hashKey murmur64 i key
  match ibf2.bucketIndices i fuel hash with
  | none => none
  | some idxs =>
    some { i with Buckets := idxs.foldl (fun acc h => modifyAt (fun b => b.delete key hash) acc h) i.Buckets }

/-- Which configuration check of `validateSubtrahend` (variant 2) fails. -/
inductive MismatchField2 where
  | numBuckets
  | seed
  | keyLength
  | kval
deriving DecidableEq

/-- Source `validateSubtrahend` of variant 2: compare bucket-array lengths, the
hash seed, the key length and K, in source order; no mutation. -/
def ibf2.validateSubtrahend (i o : ibf2) : Option MismatchField2 :=
  if i.Buckets.length ≠ o.Buckets.length then some MismatchField2.numBuckets
  else if i.Seed ≠ o.Seed then some MismatchField2.seed
  else if i.KeyLength ≠ o.KeyLength then some MismatchField2.keyLength
  else if i.K ≠ o.K then some MismatchField2.kval
  else none

/-- The filter obtained from NewIbf 4 by a single Add of the key kT (used
by several concrete evaluations below). -/
def fAdd : ibf := (ibf.Add murmurT (NewIbf 4) kT).1

/-- A filter whose seed list has a duplicated seed (as produced by
UnmarshalJson from a peer); its seed multiset is 1 1 2. -/
def iDup : ibf :=
  { Buckets := [newBucket KeyLength], NumBuckets := 1
    Seeds := [1, 1, 2], KeySeed := 33, KeyLength := KeyLength }

/-- Same configuration with seed multiset 1 2 2: equal as a set, different
as a multiset. -/
def oDup : ibf := { iDup with Seeds := [1, 2, 2] }

/-- A filter whose seed list is unsorted (as produced by UnmarshalJson). -/
def iUnsorted : ibf := { NewIbf 2 with Seeds := [4, 0, 1, 2] }

/-- An unsorted seed list that differs from iUnsorted as a multiset. -/
def oUnsorted : ibf := { NewIbf 2 with Seeds := [5, 0, 1, 2] }

/-- iUnsorted after validation sorted its seed list in place. -/
def iUnsorted' : ibf := { iUnsorted with Seeds := [0, 1, 2, 4] }

/-- oUnsorted after validation sorted its seed list in place. -/
def oUnsorted' : ibf := { oUnsorted with Seeds := [0, 1, 2, 5] }

/-- A one-bucket filter whose only bucket is pure with count one: its key
sum is kT and its hash sum is the murmurT hash of kT under key seed 33. -/
def iPure : ibf :=
  { Buckets := [{ count := 1, keySum := kT, hashSum := murmurT kT 33 }]
    NumBuckets := 1, Seeds := [0, 1, 2, 4], KeySeed := 33, KeyLength := KeyLength }

/-- The decode-pass state holding iPure with empty output lists. -/
def sPure : DecodeState := { filt := iPure, rem := [], mis := [], upd := false }

/-- Modelled from the spec: the absent xor helper with its spec-undefined
unequal-length region left as a parameter u.  Equal lengths force the
pointwise XOR of spec section 4.1; on unequal lengths the helper may do
anything, including abort: u returning none models a helper that panics
(the natural Go implementation indexing the second slice does), u
returning some models a silently completing helper. -/
def xorBytesU (u : List Nat → List Nat → Option (List Nat)) (a b : List Nat) :
    Option (List Nat) :=
  if a.length = b.length then some (List.zipWith Nat.xor a b) else u a b

/-- The aborting completion of the absent xor helper: every unequal-length
call panics. -/
def uPanic : List Nat → List Nat → Option (List Nat) := fun _ _ => none

/-- The silently truncating completion of the absent xor helper; under it
the partial operations below coincide with the main embedding. -/
def uTrunc : List Nat → List Nat → Option (List Nat) :=
  fun a b => some (List.zipWith Nat.xor a b)

/-- Source `bucket.update` under an arbitrary completion u of the absent
xor helper; none propagates an abort. -/
def bucket.updateU (u : List Nat → List Nat → Option (List Nat)) (b : bucket)
    (key : List Nat) (hash : Nat) : Option bucket :=
  match xorBytesU u b.keySum key with
  | none => none
  | some ks => some { b with keySum := ks, hashSum := Nat.xor b.hashSum hash }

/-- Source `bucket.add` under an arbitrary completion u of the xor helper. -/
def bucket.addU (u : List Nat → List Nat → Option (List Nat)) (b : bucket)
    (key : List Nat) (hash : Nat) : Option bucket :=
  match bucket.updateU u b key hash with
  | none => none
  | some b2 => some { b2 with count := b.count + 1 }

/-- Source `bucket.delete` under an arbitrary completion u of the xor
helper. -/
def bucket.deleteU (u : List Nat → List Nat → Option (List Nat)) (b : bucket)
    (key : List Nat) (hash : Nat) : Option bucket :=
  match bucket.updateU u b key hash with
  | none => none
  | some b2 => some { b2 with count := b.count - 1 }

/-- Abort-aware mutation of one slot of the bucket array. -/
def modifyAtU (f : bucket → Option bucket) : List bucket → Nat → Option (List bucket)
  | [], _ => some []
  | b :: bs, 0 =>
    match f b with
    | none => none
    | some b2 => some (b2 :: bs)
  | b :: bs, n + 1 =>
    match modifyAtU f bs n with
    | none => none
    | some bs2 => some (b :: bs2)

/-- Abort-aware bucket loop of Add and Delete: stop at the first aborting
bucket update, exactly as a Go panic stops the range loop. -/
def foldIdxsU (f : bucket → Option bucket) : List Nat → List bucket → Option (List bucket)
  | [], bs => some bs
  | h :: t, bs =>
    match modifyAtU f bs h with
    | none => none
    | some bs2 => foldIdxsU f t bs2

/-- Source `Add` of variant 1 under an arbitrary completion u of the absent
xor helper: none when some bucket update aborted mid-loop. -/
def ibf.AddU (u : List Nat → List Nat → Option (List Nat))
    (murmur : Key → Nat → Nat) (i : ibf) (key : Key) : Option (ibf × Bool) :=
  let hash := ibf.hashKey murmur i key
  let idxs := ibf.hashIndices murmur i key
  match foldIdxsU (fun b => bucket.addU u b key hash) idxs i.Buckets with
  | none => none
  | some bs => some ({ i with Buckets := bs }, idxs.any (fun h => decide ((getAt bs h).count < 2)))

/-- Source `Delete` of variant 1 under an arbitrary completion u of the
absent xor helper. -/
def ibf.DeleteU (u : List Nat → List Nat → Option (List Nat))
    (murmur : Key → Nat → Nat) (i : ibf) (key : Key) : Option ibf :=
  let hash := ibf.hashKey murmur i key
  let idxs := ibf.hashIndices murmur i key
  match foldIdxsU (fun b => bucket.deleteU u b key hash) idxs i.Buckets with
  | none => none
  | some bs => some { i with Buckets := bs }

theorem natXor_cancel (a b : Nat) : Nat.xor (Nat.xor a b) b = a := by
  show (a ^^^ b) ^^^ b = a
  rw [Nat.xor_assoc, Nat.xor_self, Nat.xor_zero]

theorem xorBytes_cancel (a : List Nat) : ∀ (k : List Nat), k.length = a.length →
    xorBytes (xorBytes a k) k = a := by
  induction a with
  | nil => intro k _; cases k <;> rfl
  | cons x xs ih =>
    intro k hk
    cases k with
    | nil => simp at hk
    | cons y ys =>
      simp only [List.length_cons, Nat.add_right_cancel_iff] at hk
      simp only [xorBytes, List.zipWith]
      rw [natXor_cancel]
      have := ih ys hk
      simp only [xorBytes] at this
      rw [this]

/-- C9: for every bucket state and every key/hash pair whose key has the
length of the bucket key sum, add followed by delete, and delete followed
by add, both restore the exact prior bucket state (count, key sum and hash
sum). -/
theorem c9_bucket_add_delete_inverse (b : bucket) (key : Key) (hash : Nat)
    (h : key.length = b.keySum.length) :
    (b.add key hash).delete key hash = b ∧ (b.delete key hash).add key hash = b := by
  obtain ⟨c, ks, hs⟩ := b
  have hx : xorBytes (xorBytes ks key) key = ks := xorBytes_cancel ks key (by simpa using h)
  constructor <;>
    simp [bucket.add, bucket.delete, bucket.update, bucket.mk.injEq, hx, natXor_cancel,
      Int.add_sub_cancel, Int.sub_add_cancel]

theorem c9_witness :
    ((bucket.mk 5 [1, 2] 9).add [3, 4] 7).delete [3, 4] 7 = bucket.mk 5 [1, 2] 9 ∧
    ((bucket.mk 5 [1, 2] 9).delete [3, 4] 7).add [3, 4] 7 = bucket.mk 5 [1, 2] 9 :=
  c9_bucket_add_delete_inverse (bucket.mk 5 [1, 2] 9) [3, 4] 7 (by decide)

theorem nodup_append_singleton {l : List Nat} {x : Nat} (h1 : l.Nodup) (h2 : x ∉ l) :
    (l ++ [x]).Nodup := by
  simp [List.nodup_append, h1, h2]

theorem nodup_bounded_length_le {l : List Nat} {n : Nat} (h1 : l.Nodup)
    (h2 : ∀ x ∈ l, x < n) : l.length ≤ n := by
  have h3 : l.toFinset ⊆ Finset.range n := by
    intro x hx
    simp only [Finset.mem_range]
    exact h2 x (List.mem_toFinset.mp hx)
  have := Finset.card_le_card h3
  rwa [List.toFinset_card_of_nodup h1, Finset.card_range] at this

theorem bucketIndicesAux_none (k numBuckets : Nat) (hkn : numBuckets < k)
    (h0 : 0 < numBuckets) :
    ∀ (fuel next : Nat) (acc : List Nat), acc.Nodup → (∀ x ∈ acc, x < numBuckets) →
    bucketIndicesAux k numBuckets fuel next acc = none := by
  intro fuel
  induction fuel with
  | zero =>
    intro next acc hnd hbd
    have hlen : acc.length < k := Nat.lt_of_le_of_lt (nodup_bounded_length_le hnd hbd) hkn
    simp [bucketIndicesAux, hlen]
  | succ n ih =>
    intro next acc hnd hbd
    have hlen : acc.length < k := Nat.lt_of_le_of_lt (nodup_bounded_length_le hnd hbd) hkn
    simp only [bucketIndicesAux, hlen, if_pos]
    by_cases hmem : next % numBuckets ∈ acc
    · simp only [hmem, if_pos]
      exact ih (xorshift64 next) acc hnd hbd
    · simp only [hmem, if_neg, not_false_iff]
      refine ih (xorshift64 next) (acc ++ [next % numBuckets])
        (nodup_append_singleton hnd hmem) ?_
      intro x hx
      rcases List.mem_append.mp hx with hx | hx
      · exact hbd x hx
      · simp only [List.mem_singleton] at hx
        subst hx
        exact Nat.mod_lt next h0

/-- C10: in the single-seed xorshift variant, bucketIndices loops until it
has collected K = 4 distinct indices modulo the bucket count; for a filter
constructed with a positive bucket count below 4, no amount of fuel lets
the loop finish (so bucketIndices, and with it Add and Delete, never
terminates), and consequently Add or Delete can only terminate when the
bucket count is at least K = 4. -/
theorem c10_small_filter_never_terminates (n : Nat) (h1 : 0 < n) (h2 : n < 4) :
    ∀ (murmur64 : Key → Nat → Nat) (fuel hash : Nat) (key : Key),
    (NewIbf2 n).bucketIndices fuel hash = none ∧
    ibf2.Add murmur64 fuel (NewIbf2 n) key = none ∧
    ibf2.Delete murmur64 fuel (NewIbf2 n) key = none ∧
    (∀ r : ibf2, ibf2.Add murmur64 fuel (NewIbf2 n) key = some r → 4 ≤ n) := by
  intro murmur64 fuel hash key
  have hlen : (NewIbf2 n).Buckets.length = n := by
    simp [NewIbf2, List.length_replicate]
  have hbase : ∀ h0 : Nat, (NewIbf2 n).bucketIndices fuel h0 = none := by
    intro h0
    unfold ibf2.bucketIndices
    rw [hlen]
    exact bucketIndicesAux_none 4 n h2 h1 fuel (xorshift64 h0) [] List.nodup_nil
      (by intro x hx; cases hx)
  refine ⟨hbase hash, ?_, ?_, ?_⟩
  · simp only [ibf2.Add, hbase]
  · simp only [ibf2.Delete, hbase]
  · intro r hr
    simp only [ibf2.Add, hbase] at hr
    cases hr

theorem c10_witness :
    (NewIbf2 3).bucketIndices 25 0 = none ∧
    ibf2.Add (fun _ _ => 0) 25 (NewIbf2 3) [] = none ∧
    ibf2.Delete (fun _ _ => 0) 25 (NewIbf2 3) [] = none := by
  have h := c10_small_filter_never_terminates 3 (by decide) (by decide) (fun _ _ => 0) 25 0 []
  exact ⟨h.1, h.2.1, h.2.2.1⟩

theorem processBucket_shape (murmur : Key → Nat → Nat) (s : DecodeState) (j : Nat) :
    processBucket murmur s j = s ∨
    ((processBucket murmur s j).upd = true ∧
     (processBucket murmur s j).rem.length + (processBucket murmur s j).mis.length
       = s.rem.length + s.mis.length + 1) := by
  simp only [processBucket]
  split
  · split
    · right; constructor
      · rfl
      · simp only [List.length_append, List.length_singleton]
        omega
    · right; constructor
      · rfl
      · simp only [List.length_append, List.length_singleton]
        omega
  · left; rfl

theorem processBucket_upd_mono (murmur : Key → Nat → Nat) (s : DecodeState) (j : Nat)
    (h : s.upd = true) : (processBucket murmur s j).upd = true := by
  simp only [processBucket]
  split
  · split <;> rfl
  · exact h

theorem processBucket_len_mono (murmur : Key → Nat → Nat) (s : DecodeState) (j : Nat) :
    s.rem.length + s.mis.length ≤
      (processBucket murmur s j).rem.length + (processBucket murmur s j).mis.length := by
  rcases processBucket_shape murmur s j with h | ⟨_, h⟩
  · rw [h]
  · omega

theorem foldl_pb_upd_mono (murmur : Key → Nat → Nat) (js : List Nat) :
    ∀ (s : DecodeState), s.upd = true → (js.foldl (processBucket murmur) s).upd = true := by
  induction js with
  | nil => intro s h; exact h
  | cons j rest ih =>
    intro s h
    exact ih (processBucket murmur s j) (processBucket_upd_mono murmur s j h)

theorem foldl_pb_len_mono (murmur : Key → Nat → Nat) (js : List Nat) :
    ∀ (s : DecodeState), s.rem.length + s.mis.length ≤
      (js.foldl (processBucket murmur) s).rem.length +
      (js.foldl (processBucket murmur) s).mis.length := by
  induction js with
  | nil => intro s; exact Nat.le.refl
  | cons j rest ih =>
    intro s
    exact Nat.le_trans (processBucket_len_mono murmur s j) (ih (processBucket murmur s j))

theorem foldl_pb_false_id (murmur : Key → Nat → Nat) (js : List Nat) :
    ∀ (s : DecodeState), (js.foldl (processBucket murmur) s).upd = false →
    js.foldl (processBucket murmur) s = s := by
  induction js with
  | nil => intro s _; rfl
  | cons j rest ih =>
    intro s h
    simp only [List.foldl_cons] at h ⊢
    rcases processBucket_shape murmur s j with heq | ⟨hu, _⟩
    · rw [heq] at h ⊢
      exact ih s h
    · exfalso
      have := foldl_pb_upd_mono murmur rest (processBucket murmur s j) hu
      rw [this] at h
      cases h

theorem foldl_pb_grows (murmur : Key → Nat → Nat) (js : List Nat) :
    ∀ (s : DecodeState), s.upd = false → (js.foldl (processBucket murmur) s).upd = true →
    s.rem.length + s.mis.length + 1 ≤
      (js.foldl (processBucket murmur) s).rem.length +
      (js.foldl (processBucket murmur) s).mis.length := by
  induction js with
  | nil =>
    intro s h0 h
    simp only [List.foldl_nil] at h
    rw [h0] at h
    cases h
  | cons j rest ih =>
    intro s h0 h
    simp only [List.foldl_cons] at h ⊢
    rcases processBucket_shape murmur s j with heq | ⟨hu, hlen⟩
    · rw [heq] at h ⊢
      exact ih s h0 h
    · have := foldl_pb_len_mono murmur rest (processBucket murmur s j)
      omega

/-- C2: inside a Decode pass a bucket is treated as pure exactly when its
count is plus or minus one and hashing its current key sum with the filter
key-hash function equals its current hash sum; a pure bucket with count one
has its key sum appended to remaining and Delete of that key sum applied to
the whole filter, a pure bucket with count minus one has its key sum
appended to missing and Add applied, and every other bucket leaves the
state untouched. -/
theorem c2_pure_bucket_peeling (murmur : Key → Nat → Nat) (s : DecodeState) (j : Nat) :
    ((getAt s.filt.Buckets j).count = 1 →
     ibf.hashKey murmur s.filt (getAt s.filt.Buckets j).keySum = (getAt s.filt.Buckets j).hashSum →
     processBucket murmur s j =
       { filt := ibf.Delete murmur s.filt (getAt s.filt.Buckets j).keySum
         rem := s.rem ++ [(getAt s.filt.Buckets j).keySum], mis := s.mis, upd := true }) ∧
    ((getAt s.filt.Buckets j).count = -1 →
     ibf.hashKey murmur s.filt (getAt s.filt.Buckets j).keySum = (getAt s.filt.Buckets j).hashSum →
     processBucket murmur s j =
       { filt := (ibf.Add murmur s.filt (getAt s.filt.Buckets j).keySum).1
         rem := s.rem, mis := s.mis ++ [(getAt s.filt.Buckets j).keySum], upd := true }) ∧
    (((getAt s.filt.Buckets j).count ≠ 1 ∧ (getAt s.filt.Buckets j).count ≠ -1) ∨
      ibf.hashKey murmur s.filt (getAt s.filt.Buckets j).keySum ≠ (getAt s.filt.Buckets j).hashSum →
     processBucket murmur s j = s) := by
  refine ⟨?_, ?_, ?_⟩
  · intro hc hh
    simp only [processBucket]
    simp [hc, hh]
  · intro hc hh
    simp only [processBucket]
    simp [hc, hh]
  · intro hcase
    simp only [processBucket]
    rcases hcase with ⟨hc1, hc2⟩ | hh
    · simp [hc1, hc2]
    · simp [hh]

theorem c2_witness :
    processBucket murmurT sPure 0 =
      { filt := ibf.Delete murmurT iPure kT, rem := [kT], mis := [], upd := true } := by
  have h := (c2_pure_bucket_peeling murmurT sPure 0).1 (by decide) (by decide)
  simpa using h

/-- C3: when a Decode pass finds no pure bucket, the loop stops in that
pass and returns the accumulated remaining and missing lists, with no error
when every bucket isEmpty and with the decode-failed error (success flag
false) when some bucket is non-empty. -/
theorem c3_decode_stops_without_pure (murmur : Key → Nat → Nat) (i : ibf)
    (rem mis : List Key) (h : (decodePass murmur i rem mis).upd = false) (fuel : Nat) :
    (i.Buckets.all bucket.isEmpty = true →
      decodeLoop murmur (fuel + 1) i rem mis = some (rem, mis, true, 1)) ∧
    (i.Buckets.all bucket.isEmpty = false →
      decodeLoop murmur (fuel + 1) i rem mis = some (rem, mis, false, 1)) := by
  have hid : decodePass murmur i rem mis =
      { filt := i, rem := rem, mis := mis, upd := false } := by
    unfold decodePass at h ⊢
    exact foldl_pb_false_id murmur (List.range i.Buckets.length) _ h
  constructor
  · intro hall
    simp [decodeLoop, hid, hall]
  · intro hall
    simp [decodeLoop, hid, hall]

theorem c3_witness :
    decodeLoop murmurT 1 (NewIbf 2) [] [] = some ([], [], true, 1) :=
  (c3_decode_stops_without_pure murmurT (NewIbf 2) [] [] (by decide) 0).1 (by decide)

/-- C4 amended: whenever the Decode loop terminates, every pass except the
final fixed-point-check pass peels at least one key, so the number of
passes executed is at most the number of peeled keys plus one (lists grown
from rem and mis to r and m over p passes). -/
theorem c4_passes_at_most_peels_plus_one (murmur : Key → Nat → Nat) (fuel : Nat) :
    ∀ (i : ibf) (rem mis r m : List Key) (ok : Bool) (p : Nat),
    decodeLoop murmur fuel i rem mis = some (r, m, ok, p) →
    rem.length + mis.length + p ≤ r.length + m.length + 1 := by
  induction fuel with
  | zero =>
    intro i rem mis r m ok p h
    simp [decodeLoop] at h
  | succ n ih =>
    intro i rem mis r m ok p h
    unfold decodeLoop at h
    by_cases hu : (decodePass murmur i rem mis).upd = true
    · rw [if_pos hu] at h
      rcases hrec : decodeLoop murmur n (decodePass murmur i rem mis).filt
          (decodePass murmur i rem mis).rem (decodePass murmur i rem mis).mis with _ | ⟨r', m', ok', p'⟩
      · rw [hrec] at h
        cases h
      · rw [hrec] at h
        simp only [Option.some.injEq, Prod.mk.injEq] at h
        obtain ⟨hr, hm, hok, hp⟩ := h
        have h1 := ih (decodePass murmur i rem mis).filt (decodePass murmur i rem mis).rem
          (decodePass murmur i rem mis).mis r' m' ok' p' hrec
        have h2 : rem.length + mis.length + 1 ≤
            (decodePass murmur i rem mis).rem.length + (decodePass murmur i rem mis).mis.length := by
          unfold decodePass at hu ⊢
          exact foldl_pb_grows murmur (List.range i.Buckets.length) _ rfl hu
        subst hr hm hp
        omega
    · rw [if_neg hu] at h
      have hid : decodePass murmur i rem mis =
          { filt := i, rem := rem, mis := mis, upd := false } := by
        unfold decodePass at hu ⊢
        exact foldl_pb_false_id murmur (List.range i.Buckets.length) _
          (Bool.not_eq_true _ ▸ hu)
      rw [hid] at h
      split at h <;>
        simp only [Option.some.injEq, Prod.mk.injEq] at h <;>
        obtain ⟨hr, hm, hok, hp⟩ := h <;>
        subst hr hm hp <;> omega

/-- C4 counterexample: the filter fAdd is produced from NewIbf 4 by exactly
one Add (n = 1 Add or Delete applications in total), yet Decode executes 2
passes of the outer loop: the pass that peels kT and the final
fixed-point-check pass.  The pass count does not depend on the murmur
stand-in: the peel happens because the touched bucket hash sum equals the
hash of its key sum by construction, whatever the hash function is. -/
theorem c4_counterexample :
    fAdd = (ibf.Add murmurT (NewIbf 4) kT).1 ∧
    ibf.Decode murmurT 3 fAdd = some ([kT], [], true, 2) ∧ ¬ (2 ≤ 1) := by
  refine ⟨rfl, ?_, by decide⟩
  decide

theorem c4_witness :
    ([] : List Key).length + ([] : List Key).length + 2 ≤ [kT].length + ([] : List Key).length + 1 :=
  c4_passes_at_most_peels_plus_one murmurT 3 fAdd [] [] [kT] [] true 2 (by decide)

/-- C1: the claim fails on the code.  Go encoding/json ignores the
unexported bucket fields, so MarshalJson writes every bucket as an empty
JSON object and UnmarshalJson rebuilds zero buckets: the round trip (and
with it clone) loses all bucket state.  Already the fresh NewIbf 1 fails
bucket-for-bucket equality (its bucket key sum is 32 zero bytes, the
round-tripped bucket key sum is nil), and after one Add the counts diverge
too (1 in the original, 0 in the round trip). -/
theorem c1_roundtrip_loses_bucket_state :
    ibfEq (jsonRoundTrip (NewIbf 1)) (NewIbf 1) = false ∧
    ibfEq (jsonRoundTrip fAdd) fAdd = false ∧
    (getAt fAdd.Buckets 0).count = 1 ∧
    (getAt (jsonRoundTrip fAdd).Buckets 0).count = 0 ∧
    ibf.clone fAdd = jsonRoundTrip fAdd := by
  refine ⟨by decide, by decide, by decide, by decide, rfl⟩

/-- C8: the claim fails on the code as a consequence of the clone bug of
C1: fAdd.clone() has the same configuration but all-zero buckets, so
Subtract succeeds and subtracts zeros, leaving the counts of fAdd intact
(bucket 0 still has count 1), the filter not all-empty, and the subsequent
Decode stalls with the decode-failed error rather than returning empty
lists with no error.  The count facts are independent of the spec-modelled
xorBytes behaviour on the nil cloned key sums. -/
theorem c8_subtract_clone_not_empty :
    (ibf.Subtract fAdd (ibf.clone fAdd)).1 = none ∧
    (getAt (ibf.Subtract fAdd (ibf.clone fAdd)).2.1.Buckets 0).count = 1 ∧
    (ibf.Subtract fAdd (ibf.clone fAdd)).2.1.Buckets.all bucket.isEmpty = false ∧
    ibf.Decode murmurT 3 (ibf.Subtract fAdd (ibf.clone fAdd)).2.1 = some ([], [], false, 1) := by
  refine ⟨by decide, by decide, by decide, by decide⟩

theorem modifyAt_length (f : bucket → bucket) : ∀ (bs : List bucket) (n : Nat),
    (modifyAt f bs n).length = bs.length := by
  intro bs
  induction bs with
  | nil => intro n; rfl
  | cons b rest ih =>
    intro n
    cases n with
    | zero => rfl
    | succ m => simp [modifyAt, ih m]

theorem getAt_modifyAt_self (f : bucket → bucket) : ∀ (bs : List bucket) (j : Nat),
    j < bs.length → getAt (modifyAt f bs j) j = f (getAt bs j) := by
  intro bs
  induction bs with
  | nil => intro j hj; cases hj
  | cons b rest ih =>
    intro j hj
    cases j with
    | zero => rfl
    | succ m =>
      simp only [modifyAt, getAt, List.getD_cons_succ]
      exact ih m (by simpa using hj)

theorem getAt_modifyAt_ne (f : bucket → bucket) : ∀ (bs : List bucket) (n j : Nat),
    j ≠ n → getAt (modifyAt f bs n) j = getAt bs j := by
  intro bs
  induction bs with
  | nil => intro n j _; rfl
  | cons b rest ih =>
    intro n j hne
    cases n with
    | zero =>
      cases j with
      | zero => exact absurd rfl hne
      | succ m => rfl
    | succ nm =>
      cases j with
      | zero => rfl
      | succ m =>
        simp only [modifyAt, getAt, List.getD_cons_succ]
        exact ih nm m (by omega)

theorem getAt_foldl_modify (f : bucket → bucket) : ∀ (idxs : List Nat) (bs : List bucket) (j : Nat),
    idxs.Nodup → j < bs.length →
    getAt (idxs.foldl (fun acc h => modifyAt f acc h) bs) j
      = if j ∈ idxs then f (getAt bs j) else getAt bs j := by
  intro idxs
  induction idxs with
  | nil => intro bs j _ _; simp
  | cons idx rest ih =>
    intro bs j hnd hj
    have hndr : rest.Nodup := (List.nodup_cons.mp hnd).2
    have hnm : idx ∉ rest := (List.nodup_cons.mp hnd).1
    simp only [List.foldl_cons]
    have hlen : j < (modifyAt f bs idx).length := by rw [modifyAt_length]; exact hj
    rw [ih (modifyAt f bs idx) j hndr hlen]
    by_cases hji : j = idx
    · subst hji
      have hjr : j ∉ rest := by
        intro hmem; exact hnm hmem
      simp only [hjr, if_neg, not_false_iff, List.mem_cons, true_or, if_pos]
      exact getAt_modifyAt_self f bs j hj
    · by_cases hjr : j ∈ rest
      · simp only [hjr, if_pos, List.mem_cons, or_true]
        rw [getAt_modifyAt_ne f bs idx j hji]
      · simp only [hjr, if_neg, not_false_iff]
        rw [getAt_modifyAt_ne f bs idx j hji]
        have : j ∉ idx :: rest := by
          simp [List.mem_cons, hji, hjr]
        simp [this]

theorem unique_aux_nodup (l : List Nat) : ∀ (acc : List Nat), acc.Nodup →
    (l.foldl (fun acc v => if v ∈ acc then acc else acc ++ [v]) acc).Nodup := by
  induction l with
  | nil => intro acc h; exact h
  | cons v rest ih =>
    intro acc h
    simp only [List.foldl_cons]
    by_cases hmem : v ∈ acc
    · simp only [hmem, if_pos]
      exact ih acc h
    · simp only [hmem, if_neg, not_false_iff]
      exact ih (acc ++ [v]) (nodup_append_singleton h hmem)

theorem unique_nodup (l : List Nat) : (unique l).Nodup :=
  unique_aux_nodup l [] List.nodup_nil

theorem hashIndices_nodup (murmur : Key → Nat → Nat) (i : ibf) (key : Key) :
    (ibf.hashIndices murmur i key).Nodup := by
  unfold ibf.hashIndices
  exact unique_nodup _

theorem xorBytesU_uTrunc (a b : List Nat) : xorBytesU uTrunc a b = some (xorBytes a b) := by
  unfold xorBytesU uTrunc xorBytes
  split_ifs <;> rfl

theorem bucket_addU_in_region (u : List Nat → List Nat → Option (List Nat))
    (b : bucket) (key : Key) (hash : Nat) (h : b.keySum.length = key.length) :
    bucket.addU u b key hash = some (b.add key hash) := by
  simp [bucket.addU, bucket.updateU, xorBytesU, h, bucket.add, bucket.update, xorBytes]

theorem bucket_deleteU_in_region (u : List Nat → List Nat → Option (List Nat))
    (b : bucket) (key : Key) (hash : Nat) (h : b.keySum.length = key.length) :
    bucket.deleteU u b key hash = some (b.delete key hash) := by
  simp [bucket.deleteU, bucket.updateU, xorBytesU, h, bucket.delete, bucket.update, xorBytes]

theorem add_preserves_keySum_len (key : Key) (hash : Nat) (b : bucket)
    (h : b.keySum.length = key.length) : (b.add key hash).keySum.length = key.length := by
  simp [bucket.add, bucket.update, xorBytes, List.length_zipWith, h]

theorem delete_preserves_keySum_len (key : Key) (hash : Nat) (b : bucket)
    (h : b.keySum.length = key.length) : (b.delete key hash).keySum.length = key.length := by
  simp [bucket.delete, bucket.update, xorBytes, List.length_zipWith, h]

theorem mem_modifyAt (g : bucket → bucket) : ∀ (bs : List bucket) (n : Nat) (b2 : bucket),
    b2 ∈ modifyAt g bs n → b2 ∈ bs ∨ ∃ b ∈ bs, b2 = g b := by
  intro bs
  induction bs with
  | nil => intro n b2 h; cases h
  | cons b rest ih =>
    intro n b2 h
    cases n with
    | zero =>
      rcases List.mem_cons.mp h with h | h
      · exact Or.inr ⟨b, List.mem_cons_self b rest, h⟩
      · exact Or.inl (List.mem_cons_of_mem b h)
    | succ m =>
      rcases List.mem_cons.mp h with h | h
      · exact Or.inl (h ▸ List.mem_cons_self b rest)
      · rcases ih m b2 h with h | ⟨b3, hb3, he⟩
        · exact Or.inl (List.mem_cons_of_mem b h)
        · exact Or.inr ⟨b3, List.mem_cons_of_mem b hb3, he⟩

theorem modifyAtU_some (f : bucket → Option bucket) (g : bucket → bucket) :
    ∀ (bs : List bucket) (n : Nat), (∀ b ∈ bs, f b = some (g b)) →
    modifyAtU f bs n = some (modifyAt g bs n) := by
  intro bs
  induction bs with
  | nil => intro n _; rfl
  | cons b rest ih =>
    intro n hf
    cases n with
    | zero =>
      simp only [modifyAtU, modifyAt, hf b (List.mem_cons_self b rest)]
    | succ m =>
      simp only [modifyAtU, modifyAt,
        ih m (fun b2 hb2 => hf b2 (List.mem_cons_of_mem b hb2))]

theorem foldIdxsU_some (f : bucket → Option bucket) (g : bucket → bucket)
    (P : bucket → Prop) (hfg : ∀ b, P b → f b = some (g b))
    (hpres : ∀ b, P b → P (g b)) :
    ∀ (idxs : List Nat) (bs : List bucket), (∀ b ∈ bs, P b) →
    foldIdxsU f idxs bs = some (idxs.foldl (fun acc h => modifyAt g acc h) bs) := by
  intro idxs
  induction idxs with
  | nil => intro bs _; rfl
  | cons idx rest ih =>
    intro bs hP
    have hstep : modifyAtU f bs idx = some (modifyAt g bs idx) :=
      modifyAtU_some f g bs idx (fun b hb => hfg b (hP b hb))
    simp only [foldIdxsU, hstep, List.foldl_cons]
    refine ih (modifyAt g bs idx) ?_
    intro b2 hb2
    rcases mem_modifyAt g bs idx b2 hb2 with h | ⟨b, hb, he⟩
    · exact hP b2 h
    · exact he ▸ hpres b (hP b hb)

theorem bucket_addU_uTrunc (b : bucket) (key : Key) (hash : Nat) :
    bucket.addU uTrunc b key hash = some (b.add key hash) := by
  simp [bucket.addU, bucket.updateU, xorBytesU_uTrunc, bucket.add, bucket.update]

theorem bucket_deleteU_uTrunc (b : bucket) (key : Key) (hash : Nat) :
    bucket.deleteU uTrunc b key hash = some (b.delete key hash) := by
  simp [bucket.deleteU, bucket.updateU, xorBytesU_uTrunc, bucket.delete, bucket.update]

/-- C7 amended: Add and Delete perform no key-length validation and no
InvalidKeyLength error exists (neither operation even has an error
return).  Formally, under every completion u of the spec-undefined
unequal-length behaviour of the absent xor helper: parts one and two, the
operations never consult the configured KeyLength field, so no check
against it can exist (changing that field changes nothing but the field
itself); part three, for a key matching the bucket key-sum lengths no
abort is possible whatever u does and the operations complete exactly as
in the main embedding; parts four and five, the main embedding is the
silently completing instance uTrunc.  What happens to a wrong-length key
is therefore decided entirely by the absent helper (abort or silent
completion), never by a fail-fast validation. -/
theorem c7_add_delete_ignore_key_length (u : List Nat → List Nat → Option (List Nat))
    (murmur : Key → Nat → Nat) (i : ibf) (key : Key) (kl' : Nat) :
    (ibf.AddU u murmur { i with KeyLength := kl' } key
      = (ibf.AddU u murmur i key).map (fun r => ({ r.1 with KeyLength := kl' }, r.2))) ∧
    (ibf.DeleteU u murmur { i with KeyLength := kl' } key
      = (ibf.DeleteU u murmur i key).map (fun r => { r with KeyLength := kl' })) ∧
    ((∀ b ∈ i.Buckets, b.keySum.length = key.length) →
      ibf.AddU u murmur i key = some (ibf.Add murmur i key) ∧
      ibf.DeleteU u murmur i key = some (ibf.Delete murmur i key)) ∧
    (ibf.AddU uTrunc murmur i key = some (ibf.Add murmur i key)) ∧
    (ibf.DeleteU uTrunc murmur i key = some (ibf.Delete murmur i key)) := by
  refine ⟨?_, ?_, ?_, ?_, ?_⟩
  · simp only [ibf.AddU, ibf.hashKey, ibf.hashIndices]
    cases hf : foldIdxsU (fun b => bucket.addU u b key (murmur key i.KeySeed))
        (unique (List.map (fun seed => murmur key seed % i.NumBuckets) i.Seeds))
        i.Buckets with
    | none => simp [hf]
    | some bs => simp [hf]
  · simp only [ibf.DeleteU, ibf.hashKey, ibf.hashIndices]
    cases hf : foldIdxsU (fun b => bucket.deleteU u b key (murmur key i.KeySeed))
        (unique (List.map (fun seed => murmur key seed % i.NumBuckets) i.Seeds))
        i.Buckets with
    | none => simp [hf]
    | some bs => simp [hf]
  · intro hlen
    constructor
    · have hfold := foldIdxsU_some
        (fun b => bucket.addU u b key (ibf.hashKey murmur i key))
        (fun b => b.add key (ibf.hashKey murmur i key))
        (fun b => b.keySum.length = key.length)
        (fun b hb => bucket_addU_in_region u b key (ibf.hashKey murmur i key) hb)
        (fun b hb => add_preserves_keySum_len key (ibf.hashKey murmur i key) b hb)
        (ibf.hashIndices murmur i key) i.Buckets hlen
      simp only [ibf.AddU, ibf.Add, hfold]
    · have hfold := foldIdxsU_some
        (fun b => bucket.deleteU u b key (ibf.hashKey murmur i key))
        (fun b => b.delete key (ibf.hashKey murmur i key))
        (fun b => b.keySum.length = key.length)
        (fun b hb => bucket_deleteU_in_region u b key (ibf.hashKey murmur i key) hb)
        (fun b hb => delete_preserves_keySum_len key (ibf.hashKey murmur i key) b hb)
        (ibf.hashIndices murmur i key) i.Buckets hlen
      simp only [ibf.DeleteU, ibf.Delete, hfold]
  · have hfold := foldIdxsU_some
      (fun b => bucket.addU uTrunc b key (ibf.hashKey murmur i key))
      (fun b => b.add key (ibf.hashKey murmur i key))
      (fun _ => True)
      (fun b _ => bucket_addU_uTrunc b key (ibf.hashKey murmur i key))
      (fun _ _ => trivial)
      (ibf.hashIndices murmur i key) i.Buckets (fun _ _ => trivial)
    simp only [ibf.AddU, ibf.Add, hfold]
  · have hfold := foldIdxsU_some
      (fun b => bucket.deleteU uTrunc b key (ibf.hashKey murmur i key))
      (fun b => b.delete key (ibf.hashKey murmur i key))
      (fun _ => True)
      (fun b _ => bucket_deleteU_uTrunc b key (ibf.hashKey murmur i key))
      (fun _ _ => trivial)
      (ibf.hashIndices murmur i key) i.Buckets (fun _ _ => trivial)
    simp only [ibf.DeleteU, ibf.Delete, hfold]

/-- C7 counterexample: the one-byte key 7 does not have the configured key
length 32, and Add and Delete do not fail fast with an InvalidKeyLength
error at it: no error value exists in their return types at all, and
whatever the absent xor helper does on the unequal-length call the claimed
behaviour never occurs.  Under the aborting completion uPanic both
operations die mid-bucket-loop (none, a runtime panic), which is not an
InvalidKeyLength error and happens inside the mutation loop, not in a
fail-fast validation; under the silently completing instance uTrunc, which
is the main embedding, they complete, Add returns its ordinary boolean and
mutates bucket 3 from count 0 to count 1.  The last two conjuncts show no
validation consults the KeyLength field: setting that field to 1, which
makes the key length match the configuration, changes the bucket behaviour
in no way under either completion. -/
theorem c7_counterexample :
    ([7] : Key).length ≠ (NewIbf 4).KeyLength ∧
    ibf.AddU uPanic murmurT (NewIbf 4) [7] = none ∧
    ibf.DeleteU uPanic murmurT (NewIbf 4) [7] = none ∧
    ibf.AddU uTrunc murmurT (NewIbf 4) [7] = some (ibf.Add murmurT (NewIbf 4) [7]) ∧
    (ibf.Add murmurT (NewIbf 4) [7]).2 = true ∧
    (getAt (ibf.Add murmurT (NewIbf 4) [7]).1.Buckets 3).count = 1 ∧
    (getAt (NewIbf 4).Buckets 3).count = 0 ∧
    (ibf.AddU uPanic murmurT { NewIbf 4 with KeyLength := 1 } [7]).map (fun r => r.1.Buckets)
      = (ibf.AddU uPanic murmurT (NewIbf 4) [7]).map (fun r => r.1.Buckets) ∧
    (ibf.AddU uTrunc murmurT { NewIbf 4 with KeyLength := 1 } [7]).map (fun r => r.1.Buckets)
      = (ibf.AddU uTrunc murmurT (NewIbf 4) [7]).map (fun r => r.1.Buckets) := by
  refine ⟨by decide, by decide, by decide, by decide, by decide, by decide, by decide,
    by decide, by decide⟩

theorem c7_witness :
    ibf.AddU uPanic murmurT (NewIbf 2) kT = some (ibf.Add murmurT (NewIbf 2) kT) ∧
    ibf.DeleteU uPanic murmurT (NewIbf 2) kT = some (ibf.Delete murmurT (NewIbf 2) kT) :=
  (c7_add_delete_ignore_key_length uPanic murmurT (NewIbf 2) kT 0).2.2.1 (by decide)


theorem sortSeeds_eq_iff_perm (a b : List Nat) :
    sortSeeds a = sortSeeds b ↔ a.Perm b := by
  constructor
  · intro h
    have ha : a.Perm (sortSeeds a) := (List.perm_insertionSort (· ≤ ·) a).symm
    have hb : (sortSeeds b).Perm b := List.perm_insertionSort (· ≤ ·) b
    exact (h ▸ ha).trans hb
  · intro h
    exact List.eq_of_perm_of_sorted
      ((List.perm_insertionSort (· ≤ ·) a).trans
        (h.trans (List.perm_insertionSort (· ≤ ·) b).symm))
      (List.sorted_insertionSort (· ≤ ·) a)
      (List.sorted_insertionSort (· ≤ ·) b)

/-- C5 amended: Subtract reports a config mismatch exactly when the two
configurations differ in bucket count, key-hash seed, key length, or
index-derivation parameters, where the seed lists of the multi-seed variant
are compared as multisets (equal length and equal ascending-sorted
contents, i.e. up to permutation with multiplicity), not as sets; the error
identifies the first differing field in check order, on success variant 1
applies bucket.subtract position by position, and the single-seed variant
compares bucket count, seed, key length and K. -/
theorem c5_config_mismatch_characterization (i o : ibf) (i2 o2 : ibf2) :
    ((ibf.validateSubtrahend i o).1 = none ↔
      (i.NumBuckets = o.NumBuckets ∧ i.KeySeed = o.KeySeed ∧ i.KeyLength = o.KeyLength ∧
       i.Seeds.length = o.Seeds.length ∧ sortSeeds i.Seeds = sortSeeds o.Seeds)) ∧
    ((ibf.Subtract i o).1 = (ibf.validateSubtrahend i o).1) ∧
    ((ibf.validateSubtrahend i o).1 = some MismatchField.numBuckets ↔
      i.NumBuckets ≠ o.NumBuckets) ∧
    ((ibf.validateSubtrahend i o).1 = some MismatchField.keySeed ↔
      (i.NumBuckets = o.NumBuckets ∧ i.KeySeed ≠ o.KeySeed)) ∧
    ((ibf.validateSubtrahend i o).1 = some MismatchField.keyLength ↔
      (i.NumBuckets = o.NumBuckets ∧ i.KeySeed = o.KeySeed ∧ i.KeyLength ≠ o.KeyLength)) ∧
    ((ibf.validateSubtrahend i o).1 = some MismatchField.seedsLen ↔
      (i.NumBuckets = o.NumBuckets ∧ i.KeySeed = o.KeySeed ∧ i.KeyLength = o.KeyLength ∧
       i.Seeds.length ≠ o.Seeds.length)) ∧
    ((ibf.validateSubtrahend i o).1 = some MismatchField.seedsContent ↔
      (i.NumBuckets = o.NumBuckets ∧ i.KeySeed = o.KeySeed ∧ i.KeyLength = o.KeyLength ∧
       i.Seeds.length = o.Seeds.length ∧ sortSeeds i.Seeds ≠ sortSeeds o.Seeds)) ∧
    (sortSeeds i.Seeds = sortSeeds o.Seeds ↔ i.Seeds.Perm o.Seeds) ∧
    ((ibf.validateSubtrahend i o).1 = none →
      ibf.Subtract i o = (none,
        { i with Seeds := sortSeeds i.Seeds
                 Buckets := List.zipWith bucket.subtract i.Buckets o.Buckets },
        { o with Seeds := sortSeeds o.Seeds })) ∧
    (ibf2.validateSubtrahend i2 o2 = none ↔
      (i2.Buckets.length = o2.Buckets.length ∧ i2.Seed = o2.Seed ∧
       i2.KeyLength = o2.KeyLength ∧ i2.K = o2.K)) := by
  have hperm := sortSeeds_eq_iff_perm i.Seeds o.Seeds
  refine ⟨?_, ?_, ?_, ?_, ?_, ?_, ?_, hperm, ?_, ?_⟩ <;>
    simp only [ibf.Subtract, ibf.validateSubtrahend, ibf2.validateSubtrahend] <;>
    split_ifs <;> simp_all

/-- C5 counterexample: iDup and oDup agree on bucket count, key seed, key
length and seed-list length, and their seed lists 1 1 2 and 1 2 2 are equal
as sets (same members), yet Subtract reports a config mismatch on the seed
contents, because the code compares the sorted lists element-wise, which is
multiset comparison, not set comparison. -/
theorem c5_counterexample :
    (ibf.validateSubtrahend iDup oDup).1 = some MismatchField.seedsContent ∧
    (ibf.Subtract iDup oDup).1 = some MismatchField.seedsContent ∧
    iDup.Seeds.all (fun x => decide (x ∈ oDup.Seeds)) = true ∧
    oDup.Seeds.all (fun x => decide (x ∈ iDup.Seeds)) = true ∧
    iDup.NumBuckets = oDup.NumBuckets ∧ iDup.KeySeed = oDup.KeySeed ∧
    iDup.KeyLength = oDup.KeyLength ∧ iDup.Seeds.length = oDup.Seeds.length := by
  refine ⟨by decide, by decide, by decide, by decide, by decide, by decide, by decide, by decide⟩

theorem c5_witness :
    (ibf.validateSubtrahend (NewIbf 1) (NewIbf 2)).1 = some MismatchField.numBuckets :=
  (c5_config_mismatch_characterization (NewIbf 1) (NewIbf 2) (NewIbf2 1) (NewIbf2 1)).2.2.1.mpr
    (by decide)

/-- C6 amended: when Subtract returns a config mismatch, the bucket
contents and every configuration field of both filters are unchanged,
except that the seed lists may have been re-sorted in place (they remain
permutations of the originals); for every mismatch detected before the
seed-content comparison (bucket count, key seed, key length, seed-list
length) both filters are returned exactly untouched. -/
theorem c6_mismatch_mutates_only_seed_order (i o : ibf) (e : MismatchField) (i' o' : ibf)
    (h : ibf.Subtract i o = (some e, i', o')) :
    i'.Buckets = i.Buckets ∧ o'.Buckets = o.Buckets ∧
    i'.NumBuckets = i.NumBuckets ∧ o'.NumBuckets = o.NumBuckets ∧
    i'.KeySeed = i.KeySeed ∧ o'.KeySeed = o.KeySeed ∧
    i'.KeyLength = i.KeyLength ∧ o'.KeyLength = o.KeyLength ∧
    i'.Seeds.Perm i.Seeds ∧ o'.Seeds.Perm o.Seeds ∧
    (e ≠ MismatchField.seedsContent → (i' = i ∧ o' = o)) := by
  simp only [ibf.Subtract, ibf.validateSubtrahend] at h
  split_ifs at h
  case _ =>
    simp only [Prod.mk.injEq, Option.some.injEq] at h
    obtain ⟨he, hi, ho⟩ := h
    subst hi ho
    exact ⟨rfl, rfl, rfl, rfl, rfl, rfl, rfl, rfl, List.Perm.refl _, List.Perm.refl _,
      fun _ => ⟨rfl, rfl⟩⟩
  case _ =>
    simp only [Prod.mk.injEq, Option.some.injEq] at h
    obtain ⟨he, hi, ho⟩ := h
    subst hi ho
    exact ⟨rfl, rfl, rfl, rfl, rfl, rfl, rfl, rfl, List.Perm.refl _, List.Perm.refl _,
      fun _ => ⟨rfl, rfl⟩⟩
  case _ =>
    simp only [Prod.mk.injEq, Option.some.injEq] at h
    obtain ⟨he, hi, ho⟩ := h
    subst hi ho
    exact ⟨rfl, rfl, rfl, rfl, rfl, rfl, rfl, rfl, List.Perm.refl _, List.Perm.refl _,
      fun _ => ⟨rfl, rfl⟩⟩
  case _ =>
    simp only [Prod.mk.injEq, Option.some.injEq] at h
    obtain ⟨he, hi, ho⟩ := h
    subst hi ho
    exact ⟨rfl, rfl, rfl, rfl, rfl, rfl, rfl, rfl, List.Perm.refl _, List.Perm.refl _,
      fun _ => ⟨rfl, rfl⟩⟩
  case _ =>
    simp only [Prod.mk.injEq, Option.some.injEq] at h
    obtain ⟨he, hi, ho⟩ := h
    subst hi ho
    refine ⟨rfl, rfl, rfl, rfl, rfl, rfl, rfl, rfl,
      List.perm_insertionSort (· ≤ ·) i.Seeds, List.perm_insertionSort (· ≤ ·) o.Seeds, ?_⟩
    intro hne
    exact absurd he.symm hne
  case _ =>
    simp at h

/-- C6 counterexample: iUnsorted and oUnsorted carry unsorted seed lists
(as UnmarshalJson can produce); Subtract reports a seed-content mismatch
and returns both filters with their seed lists sorted in place, so the
observable Seeds order of both operands changed even though the operation
failed. -/
theorem c6_counterexample :
    (ibf.Subtract iUnsorted oUnsorted).1 = some MismatchField.seedsContent ∧
    (ibf.Subtract iUnsorted oUnsorted).2.1 = iUnsorted' ∧
    (ibf.Subtract iUnsorted oUnsorted).2.2 = oUnsorted' ∧
    iUnsorted'.Seeds ≠ iUnsorted.Seeds ∧
    oUnsorted'.Seeds ≠ oUnsorted.Seeds := by
  refine ⟨by decide, by decide, by decide, by decide, by decide⟩

theorem c6_witness :
    iUnsorted'.Seeds.Perm iUnsorted.Seeds ∧ oUnsorted'.Seeds.Perm oUnsorted.Seeds := by
  obtain ⟨-, -, -, -, -, -, -, -, hp1, hp2, -⟩ :=
    c6_mismatch_mutates_only_seed_order iUnsorted oUnsorted MismatchField.seedsContent
      iUnsorted' oUnsorted' (by decide)
  exact ⟨hp1, hp2⟩
